import Mathlib

/-!
Verification of the TypeGuards runtime type-checking library (Lchemist/TypeGuards,
`src/index.ts` as published in the repository README, v1.1.0).

The development shallow-embeds the library's value universe and its composition
engine (`validateValue`, `validateObject`, `transformObject`, the combinators and
the `Union` merge algorithm) in Lean, and settles the frozen claims about it.

Modelling conventions, stated once here:

* JS values are modelled by the inductive `Value`.  Mutable heap objects
  (arrays, plain objects, host-class instances, functions, symbols) carry a
  `Nat` reference identity so that JS strict equality (`===`), which compares
  such values by reference, can be expressed.  JS numbers are modelled by
  integers plus a distinguished `nan` (the engine never does arithmetic on
  numbers: it only inspects `typeof` and compares with `===`, so float
  granularity beyond `NaN` is irrelevant to every claim).
* JS object keys are strings or symbols (`Key`).  JS stringifies numeric keys
  at object creation, so the model's keys are already in canonical form.
* A `TypeGuard` is the record built by the source's `constructor`: a definition
  tag (the private `DEF` slot, either the atomic string `'typeguard'` or a
  `SchemaDefinition`), a validate closure and a transform closure.
  `TypeDefinition = TypeGuard | Value` becomes the sum `TypeDef`.
* Fresh allocation (e.g. `Object.create` in `transformObject`, `Array.map` in
  `Array`'s transform) is modelled by giving the result reference `r + 1`
  where `r` is the source object's reference: the only observable the claims
  need is that the fresh reference differs from the input's.
-/

/-- Alias for Lean's string type, usable inside the `TypeGuards` namespace even
after `TypeGuards.String` (the string leaf guard) shadows the name `String`. -/
abbrev Str := String

/-- An own key of a JS object: a string or a symbol (identified by id).
Numeric keys are stringified by JS at object creation and by `Record`'s
`String(k)` canonicalization, so they are already in string form here. -/
inductive Key where
  | str (s : Str)
  | sym (id : Nat)
deriving DecidableEq, Repr

/-- Host classes whose instances the engine can meet (`value instanceof C`).
These are opaque, non-plain objects; their data lives in internal slots, so
they expose no own keys. -/
inductive ClassTag where
  | map | weakmap | set | weakset | date | regexp | promise | arraybuffer | other
deriving DecidableEq, Repr

/-- The JS value universe as consumed by the library.  `num`/`nan` have
`typeof 'number'`; `fn` has `typeof 'function'`; `arr`, `obj`, `inst` and
`null` have `typeof 'object'`.  `obj` is a plain object (ordered own
entries); `arr` is an array (ordered elements); `inst` is an opaque host-class
instance.  Reference ids model JS object identity. -/
inductive Value where
  | undef
  | null
  | bool (b : Bool)
  | num (n : Int)
  | nan
  | bigintV (i : Int)
  | str (s : Str)
  | sym (id : Nat)
  | fn (ref : Nat)
  | arr (ref : Nat) (elems : List Value)
  | obj (ref : Nat) (entries : List (Key × Value))
  | inst (cls : ClassTag) (ref : Nat)

mutual
/-- The `DEF` slot of a type guard: the atomic `'typeguard'` string or a
`SchemaDefinition` (ordered key to type-definition mapping). -/
inductive DefTag where
  | atomic : DefTag
  | schema : List (Key × TypeDef) → DefTag

/-- `TypeDefinition = TypeGuard | Value`: either a guard or a literal value
used for exact structural matching. -/
inductive TypeDef where
  | guard : TypeGuard → TypeDef
  | value : Value → TypeDef

/-- The immutable record built by the source's `constructor`: definition tag,
validate closure, transform closure. -/
inductive TypeGuard where
  | mk : DefTag → (Value → Bool) → (Value → Value) → TypeGuard
end

/-- `SchemaDefinition`: ordered mapping from keys to type definitions. -/
abbrev SchemaDef := List (Key × TypeDef)

/-- The guard's `DEF` slot. -/
def TypeGuard.tag : TypeGuard → DefTag
  | .mk t _ _ => t

/-- The guard's validate closure. -/
def TypeGuard.validate : TypeGuard → (Value → Bool)
  | .mk _ v _ => v

/-- The guard's transform closure. -/
def TypeGuard.transform : TypeGuard → (Value → Value)
  | .mk _ _ t => t

/-- `isTypeGuard` at the `TypeDefinition` sum: guards are exactly the values
carrying the private `DEF` slot (per design note §9, the hidden-symbol
discrimination is reimplemented as this tagged variant). -/
def isTypeGuard : TypeDef → Bool
  | .guard _ => true
  | .value _ => false

/-- `isPlainObject`: `Object.prototype.toString.call(obj) === '[object Object]'`,
true exactly for plain objects. -/
def isPlainObject : Value → Bool
  | .obj _ _ => true
  | _ => false

/-- `typeof v === 'object'` (true for `null`, arrays, plain objects and
class instances). -/
def jsTypeofIsObject : Value → Bool
  | .null => true
  | .arr _ _ => true
  | .obj _ _ => true
  | .inst _ _ => true
  | _ => false

/-- `isSchemaTypeGuard` on a guard: its `DEF` slot is a plain object
(a `SchemaDefinition`) rather than the `'typeguard'` string. -/
def isSchemaTypeGuard (g : TypeGuard) : Bool :=
  match g.tag with
  | .schema _ => true
  | .atomic => false

/-- JS strict equality `===`.  Primitives compare by value (`NaN` equals
nothing, including itself); symbols, functions, arrays, plain objects and
instances compare by reference identity. -/
def strictEq : Value → Value → Bool
  | .undef, .undef => true
  | .null, .null => true
  | .bool a, .bool b => a == b
  | .num a, .num b => a == b
  | .bigintV a, .bigintV b => a == b
  | .str a, .str b => a == b
  | .sym a, .sym b => a == b
  | .fn a, .fn b => a == b
  | .arr a _, .arr b _ => a == b
  | .obj a _, .obj b _ => a == b
  | .inst _ a, .inst _ b => a == b
  | _, _ => false

/-- `isIdenticalArray`: both values are arrays of equal length whose elements
are pairwise strictly equal. -/
def isIdenticalArray (a b : Value) : Bool :=
  match a, b with
  | .arr _ xs, .arr _ ys =>
      xs.length == ys.length && (xs.zip ys).all fun p => strictEq p.1 p.2
  | _, _ => false

/-- First own entry for a key in a plain object's entry list (`obj[k]`;
JS own keys are unique, so first = only). -/
def lookupVal : List (Key × Value) → Key → Option Value
  | [], _ => none
  | (k', v) :: rest, k => if k' = k then some v else lookupVal rest k

/-- First entry for a key in a schema definition (`definition[k]`). -/
def lookupDef : SchemaDef → Key → Option TypeDef
  | [], _ => none
  | (k', t) :: rest, k => if k' = k then some t else lookupDef rest k

/-- `typeof value === 'undefined'` as a Boolean test. -/
def isUndefB : Value → Bool
  | .undef => true
  | _ => false

/-- The cast `definition as PlainObject<Value> : SchemaDefinition` performed by
`validateValue` when recursing into a plain-object literal: every value of the
literal is used as a (literal) type definition. -/
def coeDef (entries : List (Key × Value)) : SchemaDef :=
  entries.map fun kv => (kv.1, TypeDef.value kv.2)

mutual
/-- Termination measure on values: counts nested plain-object structure. -/
def vM : Value → Nat
  | .obj _ entries => 2 + pairsM entries
  | _ => 0
/-- Termination measure on plain-object entry lists. -/
def pairsM : List (Key × Value) → Nat
  | [] => 0
  | kv :: rest => 1 + vM kv.2 + pairsM rest
end

/-- Termination measure on type definitions: guards contribute nothing
(their validate closures are called, not recursed into). -/
def tdM : TypeDef → Nat
  | .guard _ => 0
  | .value v => vM v

/-- Termination measure on schema definitions. -/
def listM : SchemaDef → Nat
  | [] => 0
  | kt :: rest => 1 + tdM kt.2 + listM rest

theorem listM_coeDef (entries : List (Key × Value)) :
    listM (coeDef entries) = pairsM entries := by
  induction entries with
  | nil => rfl
  | cons kv rest ih => simp [coeDef, listM, pairsM, tdM] at *; omega

theorem lookupDef_tdM {d : SchemaDef} {k : Key} {t : TypeDef}
    (h : lookupDef d k = some t) : tdM t ≤ listM d := by
  induction d with
  | nil => simp [lookupDef] at h
  | cons kt rest ih =>
      simp only [lookupDef] at h
      split at h
      · cases h; simp [listM]; omega
      · have := ih h; simp [listM]; omega

theorem lookupDef_getD_tdM (d : SchemaDef) (k : Key) :
    tdM ((lookupDef d k).getD (.value .undef)) ≤ listM d := by
  cases h : lookupDef d k
  · simp [tdM, vM]
  · simpa using lookupDef_tdM h

mutual
/-- The generic value dispatcher `validateValue(value, definition)`:
guards delegate to their validate closure; array literals match by
`isIdenticalArray`; `null` matches only `null`; plain-object literals recurse
through exact-mode `validateObject`; other objects (instances) and all
primitives match by strict equality. -/
def validateValue (value : Value) (d : TypeDef) : Bool :=
  match d with
  | .guard g => g.validate value
  | .value dv =>
    match dv with
    | .arr r els => isIdenticalArray value (.arr r els)
    | .null =>
        if jsTypeofIsObject value then
          match value with
          | .null => true
          | _ => false
        else false
    | .obj r dentries =>
        if jsTypeofIsObject value then
          isPlainObject value && validateObject value (coeDef dentries) false
        else false
    | .inst c r =>
        if jsTypeofIsObject value then strictEq (.inst c r) value else false
    | dv => strictEq dv value
termination_by tdM d
decreasing_by
  simp only [tdM, vM, listM_coeDef]
  omega

/-- The object validator `validateObject(obj, definition, { partial })`:
rejects non-plain-objects; in exact mode requires equal key counts; requires
every own key of the object to be a definition key; then validates every own
value (in partial mode an own value that is strictly `undefined` is accepted
unconditionally).  JS property access `definition[k]` yields `undefined` for
an absent key, which `getD (.value .undef)` models (the containment check
makes that case unreachable anyway). -/
def validateObject (obj : Value) (d : SchemaDef) (part : Bool) : Bool :=
  match obj with
  | .obj _ entries =>
      let objKeys := entries.map Prod.fst
      let defKeys := d.map Prod.fst
      if !part && objKeys.length != defKeys.length then false
      else if !(objKeys.all fun k => defKeys.contains k) then false
      else objKeys.all fun k =>
        let value := (lookupVal entries k).getD .undef
        if part && isUndefB value then true
        else validateValue value ((lookupDef d k).getD (.value .undef))
  | _ => false
termination_by 1 + listM d
decreasing_by
  have := lookupDef_getD_tdM d k; omega
end

/-- Own entries of a value as seen by `Reflect.ownKeys` / property access:
plain objects expose their entries; arrays expose their index properties and
`length`; host-class instances keep their data in internal slots and expose
no own keys; primitives have none. -/
def ownEntries : Value → List (Key × Value)
  | .obj _ entries => entries
  | .arr _ els =>
      (els.enum.map fun p => (Key.str (toString p.1), p.2)) ++
        [(Key.str "length", Value.num els.length)]
  | _ => []

/-- Own keys of a value. -/
def ownKeys (v : Value) : List Key := (ownEntries v).map Prod.fst

/-- Reference identity of an object-typed value. -/
def refOf : Value → Nat
  | .arr r _ => r
  | .obj r _ => r
  | .inst _ r => r
  | .fn r => r
  | _ => 0

/-- The per-key step of `transformObject`: if the definition at the key is a
type guard, apply its transform to the own value, otherwise keep the value. -/
def transformEntries (entries : List (Key × Value)) (d : SchemaDef) :
    List (Key × Value) :=
  entries.map fun kv =>
    (kv.1, match lookupDef d kv.1 with
           | some (.guard g) => g.transform kv.2
           | _ => kv.2)

/-- `transformObject(obj, definition)`: non-objects and `null` pass through
unchanged; otherwise `Object.create(obj)` allocates a fresh object (modelled
by reference `refOf obj + 1`) that receives every own key of `obj`, each
value transformed by the definition's guard at that key when there is one.
Nested values are not recursed into. -/
def transformObject (obj : Value) (d : SchemaDef) : Value :=
  match obj with
  | .obj r entries => .obj (r + 1) (transformEntries entries d)
  | .arr r els => .obj (r + 1) (transformEntries (ownEntries (.arr r els)) d)
  | .inst _ r => .obj (r + 1) []
  | v => v

/-- The source's `defaultTransformer`: identity. -/
def defaultTransformer : Value → Value := fun value => value

/-- The source's `constructor(validate, transform = defaultTransformer,
{ definition = 'typeguard' })`.  Parameters are explicit here; call sites
spell out the source's defaults. -/
def constructor (validate : Value → Bool) (transform : Value → Value)
    (definition : DefTag) : TypeGuard :=
  .mk definition validate transform

/-- The overrides record accepted by `config`: optional replacement validate
and transform closures. -/
structure Overrides where
  validate : Option (Value → Bool)
  transform : Option (Value → Value)

/-- `config(c)`: builds a fresh guard via
`constructor(c.validate ?? validate, c.transform ?? transform)`.  Note the
source passes no third argument, so the new guard receives the defaulted
atomic `'typeguard'` definition tag, whatever the original's tag was. -/
def TypeGuard.config (g : TypeGuard) (c : Overrides) : TypeGuard :=
  constructor (c.validate.getD g.validate) (c.transform.getD g.transform)
    DefTag.atomic

/-- Result of the `definition(key?)` method: the whole `DEF` slot, a
sub-definition, or `undefined`. -/
inductive DefinitionResult where
  | tagR (t : DefTag)
  | defR (t : TypeDef)
  | undefR

/-- The `definition(key?)` method of a guard: with no key it returns the whole
`DEF` slot; with a key it returns `definition[key]` when the slot is a plain
object (a schema definition) and `undefined` otherwise. -/
def TypeGuard.definitionApi (g : TypeGuard) (key : Option Key) :
    DefinitionResult :=
  match key with
  | none => .tagR g.tag
  | some k =>
      match g.tag with
      | .schema d =>
          match lookupDef d k with
          | some t => .defR t
          | none => .undefR
      | .atomic => .undefR

/-- The argument of `Partial`/`Required`/`Pick`/`Omit`: a schema type guard or
a bare schema definition object. -/
inductive SchemaInput where
  | tg (g : TypeGuard)
  | raw (d : SchemaDef)

/-- `isSchemaTypeGuard(schema) ? schema[DEF] : schema`.  A bare definition
object is never a type guard (it lacks the private `DEF` slot).  For an
atomic (non-schema) guard the JS code would fall back to using the guard
object itself as a definition — a degenerate case no API consumer can reach
meaningfully; it is modelled by the empty definition. -/
def schemaInputDef : SchemaInput → SchemaDef
  | .tg g =>
      match g.tag with
      | .schema d => d
      | .atomic => []
  | .raw d => d

/-- The keys argument of `Record`: an explicit key list or a guard over keys. -/
inductive RecordKeys where
  | list (ks : List Key)
  | tg (g : TypeGuard)

/-- A key as the value handed to a key guard's validate. -/
def keyToValue : Key → Value
  | .str s => .str s
  | .sym i => .sym i

/-- `type === undefined` on an optional `TypeDefinition` parameter: absent, or
present but the literal `undefined` value. -/
def undefParam : Option TypeDef → Bool
  | none => true
  | some (.value .undef) => true
  | _ => false

namespace TypeGuards

/-- `Record(keys, value)`: accepts plain objects all of whose own keys pass
the key predicate (membership in the key list, or the key guard's validate)
and all of whose own values pass the value check — the value guard's validate
when `value` is a guard, strict equality with `value` otherwise. -/
def Record (keys : RecordKeys) (value : TypeDef) : TypeGuard :=
  constructor
    (fun obj =>
      match obj with
      | .obj _ entries =>
          (entries.map Prod.fst).all fun key =>
            (match keys with
             | .tg kg => kg.validate (keyToValue key)
             | .list ks => ks.contains key) &&
            (let v := (lookupVal entries key).getD .undef
             match value with
             | .guard vg => vg.validate v
             | .value w => strictEq w v)
      | _ => false)
    defaultTransformer .atomic

/-- `Schema(definition)`: exact-mode object validation and shallow transform
against the definition, which is also stored as the guard's `DEF` slot. -/
def Schema (definition : SchemaDef) : TypeGuard :=
  constructor
    (fun obj => validateObject obj definition false)
    (fun obj => transformObject obj definition)
    (.schema definition)

/-- `Partial(schema)`: same definition, validated with `partial = true`. -/
def Partial (schema : SchemaInput) : TypeGuard :=
  constructor
    (fun obj => validateObject obj (schemaInputDef schema) true)
    (fun obj => transformObject obj (schemaInputDef schema))
    (.schema (schemaInputDef schema))

/-- `Required(schema)`: same definition, validated with `partial = false`. -/
def Required (schema : SchemaInput) : TypeGuard :=
  constructor
    (fun obj => validateObject obj (schemaInputDef schema) false)
    (fun obj => transformObject obj (schemaInputDef schema))
    (.schema (schemaInputDef schema))

/-- The definition built by `Pick`: the entries of the original definition
whose key is in `keys`, in original order.  (The JS code builds it as a
prototype-chain child of the original definition, but only own keys are ever
consulted, so a filtered copy is equivalent.) -/
def pickDef (definition : SchemaDef) (keys : List Key) : SchemaDef :=
  definition.filter fun kt => keys.contains kt.1

/-- `Pick(schema, keys)`: exact-mode validation/transform against the
narrowed definition. -/
def Pick (schema : SchemaInput) (keys : List Key) : TypeGuard :=
  constructor
    (fun obj => validateObject obj (pickDef (schemaInputDef schema) keys) false)
    (fun obj => transformObject obj (pickDef (schemaInputDef schema) keys))
    (.schema (pickDef (schemaInputDef schema) keys))

/-- The definition built by `Omit`: the entries of the original definition
whose key is not in `keys`, in original order. -/
def omitDef (definition : SchemaDef) (keys : List Key) : SchemaDef :=
  definition.filter fun kt => !(keys.contains kt.1)

/-- `Omit(schema, keys)`: exact-mode validation/transform against the
remaining definition. -/
def Omit (schema : SchemaInput) (keys : List Key) : TypeGuard :=
  constructor
    (fun obj => validateObject obj (omitDef (schemaInputDef schema) keys) false)
    (fun obj => transformObject obj (omitDef (schemaInputDef schema) keys))
    (.schema (omitDef (schemaInputDef schema) keys))

/-- `Array(type?)`: with no element type (or the literal `undefined`), any
array; otherwise an array all of whose elements satisfy `validateValue`
against the element definition.  Transform maps elements through the element
guard's transform (fresh array) when the type is a guard. -/
def Array (type : Option TypeDef) : TypeGuard :=
  constructor
    (fun value =>
      if undefParam type then
        match value with | .arr _ _ => true | _ => false
      else
        match value, type with
        | .arr _ els, some t => els.all fun v => validateValue v t
        | _, _ => false)
    (fun value =>
      match value, type with
      | .arr r els, some (.guard g) => .arr (r + 1) (els.map g.transform)
      | _, _ => value)
    .atomic

/-- `StringArray(type?, delimiter)`: the value must be a string; it is split
on the delimiter and each part validated against the element definition (no
type: any string splits successfully).  Transform splits and maps parts
through the element guard's transform when the type is a guard. -/
def StringArray (type : Option TypeDef) (delimiter : Str) : TypeGuard :=
  constructor
    (fun value =>
      let arrOpt : Option (List Str) :=
        match value with
        | .str s => some (s.splitOn delimiter)
        | _ => none
      if undefParam type then arrOpt.isSome
      else
        match arrOpt, type with
        | some parts, some t => parts.all fun s => validateValue (.str s) t
        | _, _ => false)
    (fun value =>
      match value with
      | .str s =>
          let parts := s.splitOn delimiter
          match type with
          | some (.guard g) => .arr 0 (parts.map fun p => g.transform (.str p))
          | _ => .arr 0 (parts.map Value.str)
      | _ => value)
    .atomic

/-- `Optional(T)`: `undefined` or a `T`. -/
def Optional (type : TypeDef) : TypeGuard :=
  constructor
    (fun value =>
      match value with
      | .undef => true
      | _ => validateValue value type)
    (fun value =>
      match type with
      | .guard g => g.transform value
      | _ => value)
    .atomic

/-- `Nullable(T)`: `null` or a `T`. -/
def Nullable (type : TypeDef) : TypeGuard :=
  constructor
    (fun value =>
      match value with
      | .null => true
      | _ => validateValue value type)
    (fun value =>
      match type with
      | .guard g => g.transform value
      | _ => value)
    .atomic

/-- `NonNullable(T)`: rejects `null` and `undefined` (JS `value == null`),
else delegates. -/
def NonNullable (type : TypeDef) : TypeGuard :=
  constructor
    (fun value =>
      match value with
      | .null => false
      | .undef => false
      | _ => validateValue value type)
    (fun value =>
      match type with
      | .guard g => g.transform value
      | _ => value)
    .atomic

/-- `Const(definition)`: exact structural/identity match of a literal value
via the generic dispatcher. -/
def Const (definition : Value) : TypeGuard :=
  constructor (fun value => validateValue value (.value definition))
    defaultTransformer .atomic

/-- `Boolean` leaf: `typeof value === 'boolean'`. -/
def Boolean : TypeGuard :=
  constructor (fun value => match value with | .bool _ => true | _ => false)
    defaultTransformer .atomic

/-- `Number` leaf: `typeof value === 'number'` (including `NaN`). -/
def Number : TypeGuard :=
  constructor
    (fun value => match value with | .num _ => true | .nan => true | _ => false)
    defaultTransformer .atomic

/-- `NaN` leaf: a number that is `NaN`. -/
def NaN : TypeGuard :=
  constructor (fun value => match value with | .nan => true | _ => false)
    defaultTransformer .atomic

/-- `PositiveNumber` leaf: a number greater than 0 (`NaN > 0` is false). -/
def PositiveNumber : TypeGuard :=
  constructor (fun value => match value with | .num n => 0 < n | _ => false)
    defaultTransformer .atomic

/-- `NegativeNumber` leaf: a number less than 0. -/
def NegativeNumber : TypeGuard :=
  constructor (fun value => match value with | .num n => n < 0 | _ => false)
    defaultTransformer .atomic

/-- `BigInt` leaf: `typeof value === 'bigint'`. -/
def BigInt : TypeGuard :=
  constructor (fun value => match value with | .bigintV _ => true | _ => false)
    defaultTransformer .atomic

/-- `Symbol` leaf: `typeof value === 'symbol'`. -/
def Symbol : TypeGuard :=
  constructor (fun value => match value with | .sym _ => true | _ => false)
    defaultTransformer .atomic

/-- `Undefined` leaf. -/
def Undefined : TypeGuard :=
  constructor (fun value => match value with | .undef => true | _ => false)
    defaultTransformer .atomic

/-- `Null` leaf. -/
def Null : TypeGuard :=
  constructor (fun value => match value with | .null => true | _ => false)
    defaultTransformer .atomic

/-- `Function` leaf: `typeof value === 'function'`. -/
def Function : TypeGuard :=
  constructor (fun value => match value with | .fn _ => true | _ => false)
    defaultTransformer .atomic

/-- `Map` leaf: `value instanceof Map`. -/
def Map : TypeGuard :=
  constructor
    (fun value => match value with | .inst .map _ => true | _ => false)
    defaultTransformer .atomic

/-- `Set` leaf: `value instanceof Set`. -/
def Set : TypeGuard :=
  constructor
    (fun value => match value with | .inst .set _ => true | _ => false)
    defaultTransformer .atomic

/-- `Date` leaf: `value instanceof Date`. -/
def Date : TypeGuard :=
  constructor
    (fun value => match value with | .inst .date _ => true | _ => false)
    defaultTransformer .atomic

/-- `RegExp` leaf: `value instanceof RegExp`. -/
def RegExp : TypeGuard :=
  constructor
    (fun value => match value with | .inst .regexp _ => true | _ => false)
    defaultTransformer .atomic

/-- `Promise` leaf: `value instanceof Promise`. -/
def Promise : TypeGuard :=
  constructor
    (fun value => match value with | .inst .promise _ => true | _ => false)
    defaultTransformer .atomic

/-- `Never` wildcard: validate always false, transform always `undefined`. -/
def Never : TypeGuard :=
  constructor (fun _ => false) (fun _ => .undef) .atomic

/-- `Unknown` wildcard: validate always true. -/
def Unknown : TypeGuard :=
  constructor (fun _ => true) defaultTransformer .atomic

/-- `Any` wildcard: validate always true. -/
def Any : TypeGuard :=
  constructor (fun _ => true) defaultTransformer .atomic

/-- `Object` leaf: `typeof value === 'object'` (note: accepts `null`,
arrays and instances). -/
def Object : TypeGuard :=
  constructor (fun value => jsTypeofIsObject value) defaultTransformer .atomic

/-- `String` leaf: `typeof value === 'string'`.  (Declared after every use of
the builtin `String` identifier inside this namespace.) -/
def String : TypeGuard :=
  constructor (fun value => match value with | .str _ => true | _ => false)
    defaultTransformer .atomic

/-- `NonEmptyString` leaf: a string that is nonempty after trimming. -/
def NonEmptyString : TypeGuard :=
  constructor
    (fun value => match value with | .str s => !(s.trim == "") | _ => false)
    defaultTransformer .atomic

end TypeGuards

/-- A union candidate counts as shape-like when it is a schema type guard or a
bare plain-object definition (the two cases that initialize `unionDef`). -/
def isShapeLike : TypeDef → Bool
  | .guard g => isSchemaTypeGuard g
  | .value v => isPlainObject v

/-- The shape of a union candidate: a schema guard contributes its stored
`SchemaDefinition`; a bare plain-object definition is used directly as a
shape (its values becoming literal type definitions); other candidates
contribute nothing to the merge. -/
def subProps : TypeDef → List (Key × TypeDef)
  | .guard g =>
      match g.tag with
      | .schema d => d
      | .atomic => []
  | .value (.obj _ entries) => coeDef entries
  | .value _ => []

/-- `unionDef` gets initialized iff some candidate is shape-like. -/
def hasShapeCandidate (ts : List TypeDef) : Bool := ts.any isShapeLike

/-- One step of the merge loop's bookkeeping: append a candidate's definition
for a key to that key's accumulated list (`commonProps[key].push`), or start
a fresh singleton group for a first-seen key (insertion order preserved). -/
def pushEntry : List (Key × List TypeDef) → Key → TypeDef → List (Key × List TypeDef)
  | [], k, p => [(k, [p])]
  | (k', ps) :: rest, k, p =>
      if k' = k then (k', ps ++ [p]) :: rest
      else (k', ps) :: pushEntry rest k p

/-- The merge loop's accumulated per-key candidate definitions, in first-seen
key order: for each key, the ordered list of definitions contributed by the
shape-like candidates that declare it.  This is the loop of `Union` shorn of
the in-place `unionDef` rebuilds: the loop reassigns
`unionDef[key] = Union(...commonProps[key])` each time a key recurs, always
rebuilding from the full accumulated list, so only the final per-key list
matters. -/
def collectProps (ts : List TypeDef) : List (Key × List TypeDef) :=
  ts.foldl
    (fun acc t => (subProps t).foldl (fun acc2 kp => pushEntry acc2 kp.1 kp.2) acc)
    []

mutual
/-- Termination measure for the `Union` recursion, on type definitions. -/
def tdU : TypeDef → Nat
  | .guard g => 1 + gU g
  | .value v => 1 + vM v
/-- Termination measure for the `Union` recursion, on guards. -/
def gU : TypeGuard → Nat
  | .mk tag _ _ => tagU tag
/-- Termination measure for the `Union` recursion, on definition tags. -/
def tagU : DefTag → Nat
  | .atomic => 0
  | .schema d => 1 + dListU d
/-- Termination measure for the `Union` recursion, on schema definitions. -/
def dListU : List (Key × TypeDef) → Nat
  | [] => 0
  | kt :: rest => 1 + tdU kt.2 + dListU rest
end

/-- Sum of `tdU` over a schema definition's values. -/
def dSumU : List (Key × TypeDef) → Nat
  | [] => 0
  | kt :: rest => tdU kt.2 + dSumU rest

/-- Sum of `tdU` over a candidate list. -/
def tsU : List TypeDef → Nat
  | [] => 0
  | t :: rest => tdU t + tsU rest

theorem tsU_append (a b : List TypeDef) : tsU (a ++ b) = tsU a + tsU b := by
  induction a with
  | nil => simp [tsU]
  | cons t rest ih => simp [tsU, ih]; omega

theorem dSumU_coeDef (entries : List (Key × Value)) :
    dSumU (coeDef entries) = pairsM entries := by
  induction entries with
  | nil => rfl
  | cons kv rest ih => simp [coeDef, dSumU, pairsM, tdU] at *; omega

theorem dSumU_le_dListU (d : List (Key × TypeDef)) : dSumU d ≤ dListU d := by
  induction d with
  | nil => simp [dSumU, dListU]
  | cons kt rest ih => simp [dSumU, dListU]; omega

theorem subProps_lt (t : TypeDef) : dSumU (subProps t) < tdU t := by
  match t with
  | .guard (.mk .atomic v tr) => simp [subProps, TypeGuard.tag, dSumU, tdU, gU, tagU]
  | .guard (.mk (.schema d) v tr) =>
      have := dSumU_le_dListU d
      simp [subProps, TypeGuard.tag, tdU, gU, tagU]; omega
  | .value (.obj r entries) =>
      have := dSumU_coeDef entries
      simp [subProps, tdU, vM]; omega
  | .value .undef => simp [subProps, dSumU, tdU]
  | .value .null => simp [subProps, dSumU, tdU]
  | .value (.bool b) => simp [subProps, dSumU, tdU]
  | .value (.num n) => simp [subProps, dSumU, tdU]
  | .value .nan => simp [subProps, dSumU, tdU]
  | .value (.bigintV i) => simp [subProps, dSumU, tdU]
  | .value (.str s) => simp [subProps, dSumU, tdU]
  | .value (.sym i) => simp [subProps, dSumU, tdU]
  | .value (.fn r) => simp [subProps, dSumU, tdU]
  | .value (.arr r els) => simp [subProps, dSumU, tdU]
  | .value (.inst c r) => simp [subProps, dSumU, tdU]

/-- Sum of per-group candidate weights in a merge accumulator. -/
def gWeight : List (Key × List TypeDef) → Nat
  | [] => 0
  | kg :: rest => tsU kg.2 + gWeight rest

theorem gWeight_pushEntry (acc : List (Key × List TypeDef)) (k : Key) (p : TypeDef) :
    gWeight (pushEntry acc k p) = gWeight acc + tdU p := by
  induction acc with
  | nil => simp [pushEntry, gWeight, tsU]
  | cons kg rest ih =>
      simp only [pushEntry]
      split
      · simp [gWeight, tsU_append, tsU]; omega
      · simp [gWeight, ih]; omega

theorem mem_gWeight {acc : List (Key × List TypeDef)} {k : Key} {ps : List TypeDef}
    (h : (k, ps) ∈ acc) : tsU ps ≤ gWeight acc := by
  induction acc with
  | nil => simp at h
  | cons kg rest ih =>
      rcases List.mem_cons.mp h with h1 | h2
      · subst h1; simp [gWeight]
      · have := ih h2; simp [gWeight]; omega

theorem gWeight_innerFold (l : List (Key × TypeDef)) :
    ∀ acc, gWeight (l.foldl (fun acc2 kp => pushEntry acc2 kp.1 kp.2) acc) =
      gWeight acc + dSumU l := by
  induction l with
  | nil => intro acc; simp [dSumU]
  | cons kp rest ih =>
      intro acc
      simp only [List.foldl_cons, dSumU]
      rw [ih, gWeight_pushEntry]; omega

/-- Total merge weight contributed by a candidate list. -/
def tsSubW : List TypeDef → Nat
  | [] => 0
  | t :: rest => dSumU (subProps t) + tsSubW rest

theorem gWeight_collect (ts : List TypeDef) :
    ∀ acc, gWeight (ts.foldl
      (fun acc t => (subProps t).foldl (fun acc2 kp => pushEntry acc2 kp.1 kp.2) acc)
      acc) = gWeight acc + tsSubW ts := by
  induction ts with
  | nil => intro acc; simp [tsSubW]
  | cons t rest ih =>
      intro acc
      simp only [List.foldl_cons, tsSubW]
      rw [ih, gWeight_innerFold]; omega

theorem tsSubW_lt {ts : List TypeDef} (h : ts ≠ []) : tsSubW ts < tsU ts := by
  induction ts with
  | nil => exact absurd rfl h
  | cons t rest ih =>
      have ht := subProps_lt t
      match rest with
      | [] => simp [tsSubW, tsU]; omega
      | r :: rest' =>
          have := ih (by simp)
          simp only [tsSubW, tsU] at *; omega

theorem mem_collect_lt {ts : List TypeDef} {k : Key} {ps : List TypeDef}
    (h : (k, ps) ∈ collectProps ts) : tsU ps < tsU ts := by
  have h1 : tsU ps ≤ gWeight (collectProps ts) := mem_gWeight h
  have h2 : gWeight (collectProps ts) = tsSubW ts := by
    have := gWeight_collect ts []
    simpa [collectProps, gWeight] using this
  have h3 : ts ≠ [] := by
    intro hnil
    subst hnil
    simp [collectProps] at h
  have h4 := tsSubW_lt h3
  omega

mutual
/-- Per-key finalization of the merge loop's accumulated groups: a key
declared by exactly one shape-like candidate keeps that candidate's
definition; a key declared by several is widened to a fresh nested `Union`
over the accumulated definitions, in candidate order (the loop rebuilds
`unionDef[key] = Union(...commonProps[key])` from the full list each time, so
only the final list matters).  The hypothesis carries the termination bound
for the nested `Union` calls. -/
def mergeGroups (ts : List TypeDef) :
    (groups : List (Key × List TypeDef)) →
    (∀ kp, kp ∈ groups → tsU kp.2 < tsU ts) → SchemaDef
  | [], _ => []
  | (k, ps) :: rest, h =>
      (k, match ps with
          | [] => TypeDef.value .undef
          | [p] => p
          | p :: q :: tl => TypeDef.guard (TypeGuards.Union (p :: q :: tl))) ::
        mergeGroups ts rest (fun kp hm => h kp (List.mem_cons_of_mem _ hm))
termination_by groups _ => (tsU ts, 0, groups.length)
decreasing_by
  · apply Prod.Lex.left
    exact h (k, p :: q :: tl) (List.mem_cons_self _ _)
  · apply Prod.Lex.right
    apply Prod.Lex.right
    simp [List.length_cons]

/-- The merged union definition `unionDef` produced by the merge loop: keys in
first-occurrence order, each finalized by `mergeGroups`. -/
def mergedDef (ts : List TypeDef) : SchemaDef :=
  mergeGroups ts (collectProps ts)
    (fun kp hm =>
      mem_collect_lt (show (kp.1, kp.2) ∈ collectProps ts by simpa using hm))
termination_by (tsU ts, 1, 0)
decreasing_by
  apply Prod.Lex.right
  apply Prod.Lex.left
  omega

/-- The final `unionDef` variable: the merged definition when some candidate
was shape-like, otherwise `undefined`. -/
def unionDefOf (ts : List TypeDef) : Option SchemaDef :=
  if hasShapeCandidate ts then some (mergedDef ts) else none
termination_by (tsU ts, 2, 0)
decreasing_by
  apply Prod.Lex.right
  apply Prod.Lex.left
  omega

/-- The auxiliary merged-schema guard `unionSchema`: validates a value against
the merged definition in exact mode, and rejects everything when no candidate
was shape-like (`unionDef` stayed `undefined`). -/
def unionSchemaGuard (ts : List TypeDef) : TypeGuard :=
  let uDef := unionDefOf ts
  constructor
    (fun obj =>
      match uDef with
      | some m => validateObject obj m false
      | none => false)
    defaultTransformer .atomic
termination_by (tsU ts, 3, 0)
decreasing_by
  apply Prod.Lex.right
  apply Prod.Lex.left
  omega

/-- `Union(...types)`: a non-plain-object value is accepted iff some raw
candidate accepts it via `validateValue`; a plain object is accepted iff the
merged-schema guard or some raw candidate accepts it.  Transform consults only
the raw candidates, in declaration order.  The guard's `DEF` slot is the
merged definition when some candidate was shape-like. -/
def TypeGuards.Union (ts : List TypeDef) : TypeGuard :=
  let unionSchema := unionSchemaGuard ts
  let uDef := unionDefOf ts
  constructor
    (fun value =>
      if isPlainObject value = false then ts.any fun t => validateValue value t
      else
        ((TypeDef.guard unionSchema) :: ts).any fun t =>
          match t with
          | .guard g => g.validate value
          | .value w => validateValue value (.value w))
    (fun value =>
      match ts.find? (fun t => validateValue value t) with
      | some (.guard g) => g.transform value
      | _ => value)
    (match uDef with
     | some m => .schema m
     | none => .atomic)
termination_by (tsU ts, 4, 0)
decreasing_by
  · apply Prod.Lex.right
    apply Prod.Lex.left
    omega
  · apply Prod.Lex.right
    apply Prod.Lex.left
    omega
end

mutual
/-- Deep syntax of the guards the core can build: the modelled atomic leaves,
an arbitrary external leaf conforming to the TypeGuard contract (`custom`),
every combinator and derivation operator, and `config`.  `GExpr.eval`
interprets each constructor by the corresponding shallow constructor, so a
quantification over `GExpr` is a quantification over every guard the core
builds. -/
inductive GExpr where
  | leafBoolean | leafNumber | leafNaN | leafPositiveNumber | leafNegativeNumber
  | leafBigInt | leafString | leafNonEmptyString | leafSymbol | leafUndefined
  | leafNull | leafObject | leafFunction | leafMap | leafSet | leafDate
  | leafRegExp | leafPromise | leafNever | leafUnknown | leafAny
  | custom (val : Value → Bool) (tr : Value → Value)
  | schemaE (d : List (Key × GDef))
  | partialE (s : GSchemaInput)
  | requiredE (s : GSchemaInput)
  | pickE (s : GSchemaInput) (keys : List Key)
  | omitE (s : GSchemaInput) (keys : List Key)
  | recordE (keys : GRecordKeys) (val : GDef)
  | arrayE (t : Option GDef)
  | stringArrayE (t : Option GDef) (delim : Str)
  | optionalE (t : GDef) | nullableE (t : GDef) | nonNullableE (t : GDef)
  | unionE (ts : List GDef)
  | constE (w : Value)
  | configE (base : GExpr) (v : Option (Value → Bool)) (t : Option (Value → Value))
/-- Deep syntax of `TypeDefinition` arguments. -/
inductive GDef where
  | g (e : GExpr)
  | v (w : Value)
/-- Deep syntax of `Partial`/`Required`/`Pick`/`Omit` arguments. -/
inductive GSchemaInput where
  | tg (e : GExpr)
  | raw (d : List (Key × GDef))
/-- Deep syntax of `Record` key arguments. -/
inductive GRecordKeys where
  | ks (l : List Key)
  | tg (e : GExpr)
end

mutual
/-- Interpretation of core guard syntax by the shallow constructors. -/
def GExpr.eval : GExpr → TypeGuard
  | .leafBoolean => TypeGuards.Boolean
  | .leafNumber => TypeGuards.Number
  | .leafNaN => TypeGuards.NaN
  | .leafPositiveNumber => TypeGuards.PositiveNumber
  | .leafNegativeNumber => TypeGuards.NegativeNumber
  | .leafBigInt => TypeGuards.BigInt
  | .leafString => TypeGuards.String
  | .leafNonEmptyString => TypeGuards.NonEmptyString
  | .leafSymbol => TypeGuards.Symbol
  | .leafUndefined => TypeGuards.Undefined
  | .leafNull => TypeGuards.Null
  | .leafObject => TypeGuards.Object
  | .leafFunction => TypeGuards.Function
  | .leafMap => TypeGuards.Map
  | .leafSet => TypeGuards.Set
  | .leafDate => TypeGuards.Date
  | .leafRegExp => TypeGuards.RegExp
  | .leafPromise => TypeGuards.Promise
  | .leafNever => TypeGuards.Never
  | .leafUnknown => TypeGuards.Unknown
  | .leafAny => TypeGuards.Any
  | .custom val tr => constructor val tr .atomic
  | .schemaE d => TypeGuards.Schema (GExpr.evalSD d)
  | .partialE s => TypeGuards.Partial (GExpr.evalSI s)
  | .requiredE s => TypeGuards.Required (GExpr.evalSI s)
  | .pickE s keys => TypeGuards.Pick (GExpr.evalSI s) keys
  | .omitE s keys => TypeGuards.Omit (GExpr.evalSI s) keys
  | .recordE keys val => TypeGuards.Record (GExpr.evalRK keys) (GExpr.evalD val)
  | .arrayE none => TypeGuards.Array none
  | .arrayE (some d) => TypeGuards.Array (some (GExpr.evalD d))
  | .stringArrayE none delim => TypeGuards.StringArray none delim
  | .stringArrayE (some d) delim => TypeGuards.StringArray (some (GExpr.evalD d)) delim
  | .optionalE t => TypeGuards.Optional (GExpr.evalD t)
  | .nullableE t => TypeGuards.Nullable (GExpr.evalD t)
  | .nonNullableE t => TypeGuards.NonNullable (GExpr.evalD t)
  | .unionE ts => TypeGuards.Union (GExpr.evalList ts)
  | .constE w => TypeGuards.Const w
  | .configE base v t => (GExpr.eval base).config ⟨v, t⟩
/-- Interpretation of type-definition syntax. -/
def GExpr.evalD : GDef → TypeDef
  | .g e => .guard (GExpr.eval e)
  | .v w => .value w
/-- Interpretation of candidate-list syntax. -/
def GExpr.evalList : List GDef → List TypeDef
  | [] => []
  | d :: rest => GExpr.evalD d :: GExpr.evalList rest
/-- Interpretation of schema-definition syntax. -/
def GExpr.evalSD : List (Key × GDef) → SchemaDef
  | [] => []
  | (k, d) :: rest => (k, GExpr.evalD d) :: GExpr.evalSD rest
/-- Interpretation of schema-input syntax. -/
def GExpr.evalSI : GSchemaInput → SchemaInput
  | .tg e => .tg (GExpr.eval e)
  | .raw d => .raw (GExpr.evalSD d)
/-- Interpretation of record-keys syntax. -/
def GExpr.evalRK : GRecordKeys → RecordKeys
  | .ks l => .list l
  | .tg e => .tg (GExpr.eval e)
end

theorem lookupDef_isSome_iff (d : SchemaDef) (k : Key) :
    (∃ ty, lookupDef d k = some ty) ↔ k ∈ d.map Prod.fst := by
  induction d with
  | nil => simp [lookupDef]
  | cons kt rest ih =>
      simp only [lookupDef, List.map_cons, List.mem_cons]
      split
      · rename_i heq; subst heq; simp
      · rename_i hne
        simp only [ih]
        constructor
        · intro h; right; exact h
        · intro h
          rcases h with h | h
          · exact absurd h.symm hne
          · exact h

/-- Test fixture: `A = S = Schema({a: Number, b: String})` from §8. -/
def SchemaA : TypeGuard :=
  TypeGuards.Schema [(Key.str "a", .guard TypeGuards.Number),
                     (Key.str "b", .guard TypeGuards.String)]

/-- Test fixture: `B = Schema({a: String})` from §8. -/
def SchemaB : TypeGuard :=
  TypeGuards.Schema [(Key.str "a", .guard TypeGuards.String)]

/-- Test fixture: `U = Union(A, B)` from §8. -/
def UnionAB : TypeGuard := TypeGuards.Union [.guard SchemaA, .guard SchemaB]

theorem isUndefB_eq_true {v : Value} : isUndefB v = true ↔ v = .undef := by
  cases v <;> simp [isUndefB]

theorem validateObject_obj_iff (r : Nat) (entries : List (Key × Value))
    (d : SchemaDef) (part : Bool) :
    validateObject (.obj r entries) d part = true ↔
      ((part = false → entries.length = d.length) ∧
       (∀ k ∈ entries.map Prod.fst, k ∈ d.map Prod.fst) ∧
       (∀ k ∈ entries.map Prod.fst,
         (part = true ∧ (lookupVal entries k).getD .undef = .undef) ∨
         validateValue ((lookupVal entries k).getD .undef)
           ((lookupDef d k).getD (.value .undef)) = true)) := by
  have hstep : ∀ k : Key,
      ((if part && isUndefB ((lookupVal entries k).getD .undef) then true
        else validateValue ((lookupVal entries k).getD .undef)
          ((lookupDef d k).getD (.value .undef))) = true) ↔
      ((part = true ∧ (lookupVal entries k).getD .undef = .undef) ∨
        validateValue ((lookupVal entries k).getD .undef)
          ((lookupDef d k).getD (.value .undef)) = true) := by
    intro k
    by_cases hc : (part && isUndefB ((lookupVal entries k).getD .undef)) = true
    · rw [if_pos hc]
      simp only [Bool.and_eq_true, isUndefB_eq_true] at hc
      simp [hc]
    · rw [if_neg hc]
      simp only [Bool.and_eq_true, isUndefB_eq_true] at hc
      simp [hc]
  rw [validateObject]
  simp only [List.length_map]
  constructor
  · intro h
    split at h
    · exact absurd h (by simp)
    · split at h
      · exact absurd h (by simp)
      · rename_i hlen hsub
        simp only [Bool.and_eq_true, Bool.not_eq_true', bne_iff_ne, ne_eq, not_and,
          Decidable.not_not] at hlen
        simp only [Bool.not_eq_true', Bool.not_eq_false, List.all_eq_true,
          List.contains, List.elem_eq_mem, decide_eq_true_eq] at hsub
        simp only [List.all_eq_true] at h
        refine ⟨?_, hsub, fun k hk => (hstep k).mp (h k hk)⟩
        intro hp
        subst hp
        simpa using hlen
  · rintro ⟨h1, h2, h3⟩
    rw [if_neg, if_neg]
    · simp only [List.all_eq_true]
      exact fun k hk => (hstep k).mpr (h3 k hk)
    · simp only [Bool.not_eq_true', Bool.not_eq_false, List.all_eq_true,
        List.contains, List.elem_eq_mem, decide_eq_true_eq]
      exact h2
    · simp only [Bool.and_eq_true, Bool.not_eq_true', bne_iff_ne, ne_eq, not_and,
        Decidable.not_not]
      intro hp
      exact h1 hp

/-- C4.  In exact mode, `validateObject` succeeds iff the object's own keys
match the definition's keys (same count and every object key present among
the definition keys) and every own value validates against its declared
definition; concretely `S = Schema({a: Number, b: String})` accepts
`{a:1, b:"x"}` and rejects `{a:1}` (missing key) and `{a:1, b:"x", c:0}`
(extra key). -/
theorem claim_C4_exact_mode :
    (∀ (r : Nat) (entries : List (Key × Value)) (d : SchemaDef),
      validateObject (.obj r entries) d false = true ↔
        entries.length = d.length ∧
        ∀ k ∈ entries.map Prod.fst,
          k ∈ d.map Prod.fst ∧
          validateValue ((lookupVal entries k).getD .undef)
            ((lookupDef d k).getD (.value .undef)) = true) ∧
    SchemaA.validate (.obj 0 [(Key.str "a", .num 1), (Key.str "b", .str "x")]) = true ∧
    SchemaA.validate (.obj 0 [(Key.str "a", .num 1)]) = false ∧
    SchemaA.validate (.obj 0 [(Key.str "a", .num 1), (Key.str "b", .str "x"),
                              (Key.str "c", .num 0)]) = false := by
  refine ⟨fun r entries d => ?_, ?_, ?_, ?_⟩
  · rw [validateObject_obj_iff]
    constructor
    · rintro ⟨h1, h2, h3⟩
      refine ⟨h1 rfl, fun k hk => ⟨h2 k hk, ?_⟩⟩
      rcases h3 k hk with ⟨hfalse, _⟩ | hv
      · exact absurd hfalse (by simp)
      · exact hv
    · rintro ⟨h1, h2⟩
      exact ⟨fun _ => h1, fun k hk => (h2 k hk).1, fun k hk => Or.inr (h2 k hk).2⟩
  · simp [SchemaA, TypeGuards.Schema, TypeGuards.Number, TypeGuards.String,
      constructor, TypeGuard.validate, validateObject, validateValue,
      lookupVal, lookupDef, isUndefB]
  · simp [SchemaA, TypeGuards.Schema, TypeGuards.Number, TypeGuards.String,
      constructor, TypeGuard.validate, validateObject, validateValue,
      lookupVal, lookupDef, isUndefB]
  · simp [SchemaA, TypeGuards.Schema, TypeGuards.Number, TypeGuards.String,
      constructor, TypeGuard.validate, validateObject, validateValue,
      lookupVal, lookupDef, isUndefB]

/-- C5.  In partial mode: the key-count check is skipped so missing declared
keys are allowed; an own key whose value is strictly `undefined` is accepted
unconditionally (regardless of the declared type); and an own key absent from
the schema's key set still causes rejection.  Concretely, for
`S = Schema({a: Number, b: String})`: `Partial(S)` accepts `{a:1}` and
`{a:1, b:undefined}` (even though `String` rejects `undefined`) and rejects
`{a:1, c:0}`. -/
theorem claim_C5_partial_mode :
    (∀ (r : Nat) (entries : List (Key × Value)) (d : SchemaDef),
      validateObject (.obj r entries) d true = true ↔
        (∀ k ∈ entries.map Prod.fst, k ∈ d.map Prod.fst) ∧
        (∀ k ∈ entries.map Prod.fst,
          (lookupVal entries k).getD .undef = .undef ∨
          validateValue ((lookupVal entries k).getD .undef)
            ((lookupDef d k).getD (.value .undef)) = true)) ∧
    (TypeGuards.Partial (.tg SchemaA)).validate
      (.obj 0 [(Key.str "a", .num 1)]) = true ∧
    (TypeGuards.Partial (.tg SchemaA)).validate
      (.obj 0 [(Key.str "a", .num 1), (Key.str "b", .undef)]) = true ∧
    TypeGuards.String.validate .undef = false ∧
    (TypeGuards.Partial (.tg SchemaA)).validate
      (.obj 0 [(Key.str "a", .num 1), (Key.str "c", .num 0)]) = false := by
  refine ⟨fun r entries d => ?_, ?_, ?_, ?_, ?_⟩
  · rw [validateObject_obj_iff]
    constructor
    · rintro ⟨_, h2, h3⟩
      refine ⟨h2, fun k hk => ?_⟩
      rcases h3 k hk with ⟨_, hu⟩ | hv
      · exact Or.inl hu
      · exact Or.inr hv
    · rintro ⟨h2, h3⟩
      refine ⟨by simp, h2, fun k hk => ?_⟩
      rcases h3 k hk with hu | hv
      · exact Or.inl ⟨rfl, hu⟩
      · exact Or.inr hv
  · simp [TypeGuards.Partial, schemaInputDef, SchemaA, TypeGuards.Schema,
      TypeGuards.Number, TypeGuards.String, constructor, TypeGuard.validate,
      TypeGuard.tag, validateObject, validateValue, lookupVal, lookupDef, isUndefB]
  · simp [TypeGuards.Partial, schemaInputDef, SchemaA, TypeGuards.Schema,
      TypeGuards.Number, TypeGuards.String, constructor, TypeGuard.validate,
      TypeGuard.tag, validateObject, validateValue, lookupVal, lookupDef, isUndefB]
  · simp [TypeGuards.String, constructor, TypeGuard.validate]
  · simp [TypeGuards.Partial, schemaInputDef, SchemaA, TypeGuards.Schema,
      TypeGuards.Number, TypeGuards.String, constructor, TypeGuard.validate,
      TypeGuard.tag, validateObject, validateValue, lookupVal, lookupDef, isUndefB]

/-- C2 counterexample.  The claim says `g.config(c)` carries the same
definition tag as `g`; but `config` calls `constructor(c.validate ?? validate,
c.transform ?? transform)` with no third argument, so the new guard receives
the defaulted atomic `'typeguard'` tag.  For the schema-shaped guard
`SchemaA`, `SchemaA.config({})` therefore does not carry `SchemaA`'s tag. -/
theorem claim_C2_counterexample :
    ¬ (SchemaA.config ⟨none, none⟩).tag = SchemaA.tag := by
  intro h
  rw [show (SchemaA.config ⟨none, none⟩).tag = DefTag.atomic from rfl] at h
  rw [show SchemaA.tag = DefTag.schema
        [(Key.str "a", .guard TypeGuards.Number),
         (Key.str "b", .guard TypeGuards.String)] from rfl] at h
  exact DefTag.noConfusion h

/-- C2 amended.  `g.config(c)` returns a new guard whose validate/transform
are `c`'s when supplied and `g`'s otherwise, but whose definition tag is
always the atomic default `'typeguard'` (the original tag is not carried
over); `g` itself is unchanged (guards are immutable values in the model, as
`Object.freeze` makes them in the source).  In particular `g.config({})` has
identical validate/transform behavior to `g` on every input. -/
theorem claim_C2_config_amended :
    ∀ (g : TypeGuard) (c : Overrides),
      (g.config c).validate = c.validate.getD g.validate ∧
      (g.config c).transform = c.transform.getD g.transform ∧
      (g.config c).tag = DefTag.atomic ∧
      (∀ v, (g.config ⟨none, none⟩).validate v = g.validate v ∧
            (g.config ⟨none, none⟩).transform v = g.transform v) :=
  fun g c => ⟨rfl, rfl, rfl, fun v => ⟨rfl, rfl⟩⟩

theorem lookupVal_transformEntries (entries : List (Key × Value))
    (d : SchemaDef) (k : Key) :
    lookupVal (transformEntries entries d) k =
      (lookupVal entries k).map fun v =>
        match lookupDef d k with
        | some (.guard g) => g.transform v
        | _ => v := by
  induction entries with
  | nil => simp [transformEntries, lookupVal]
  | cons kv rest ih =>
      simp only [transformEntries, List.map_cons, lookupVal] at *
      split
      · rename_i heq
        subst heq
        simp
      · exact ih

/-- C9.  `transformObject(obj, D)` on an object (non-null) input returns a
new object, distinct from `obj` (a fresh `Object.create(obj)` allocation,
modelled by the fresh reference `refOf obj + 1`), whose own keys are exactly
`obj`'s own keys and where each key `k` maps to `D[k].transform(obj[k])` when
`D[k]` is a TypeGuard and to `obj[k]` unchanged otherwise; a non-object or
null input is returned unchanged; and nested values are not recursed into
(witnessed concretely by a nested plain object kept with its original
reference and contents even though the definition nests a literal shape for
that key). -/
theorem claim_C9_transform_object :
    (∀ (v : Value) (d : SchemaDef), jsTypeofIsObject v = true → v ≠ .null →
      transformObject v d = .obj (refOf v + 1) (transformEntries (ownEntries v) d) ∧
      transformObject v d ≠ v) ∧
    (∀ (v : Value) (d : SchemaDef), jsTypeofIsObject v = false ∨ v = .null →
      transformObject v d = v) ∧
    (∀ (entries : List (Key × Value)) (d : SchemaDef),
      (transformEntries entries d).map Prod.fst = entries.map Prod.fst) ∧
    (∀ (entries : List (Key × Value)) (d : SchemaDef) (k : Key),
      lookupVal (transformEntries entries d) k =
        (lookupVal entries k).map fun v =>
          match lookupDef d k with
          | some (.guard g) => g.transform v
          | _ => v) ∧
    transformObject (.obj 100 [(Key.str "a", .obj 5 [(Key.str "x", .num 2)])])
        [(Key.str "a", .value (.obj 9 [(Key.str "x", .num 1)]))] =
      .obj 101 [(Key.str "a", .obj 5 [(Key.str "x", .num 2)])] := by
  refine ⟨?_, ?_, ?_, lookupVal_transformEntries, ?_⟩
  · intro v d hobj hnull
    match v with
    | .null => exact absurd rfl hnull
    | .obj r entries =>
        refine ⟨rfl, ?_⟩
        intro h
        rw [show transformObject (.obj r entries) d =
              .obj (r + 1) (transformEntries entries d) from rfl] at h
        have := (Value.obj.injEq _ _ _ _).mp h
        omega
    | .arr r els =>
        refine ⟨rfl, ?_⟩
        intro h
        exact Value.noConfusion h
    | .inst c r =>
        refine ⟨rfl, ?_⟩
        intro h
        exact Value.noConfusion h
    | .undef | .bool _ | .num _ | .nan | .bigintV _ | .str _ | .sym _ | .fn _ =>
        simp [jsTypeofIsObject] at hobj
  · intro v d h
    rcases h with h | h
    · match v with
      | .undef | .bool _ | .num _ | .nan | .bigintV _ | .str _ | .sym _ | .fn _ => rfl
      | .null | .obj _ _ | .arr _ _ | .inst _ _ => simp [jsTypeofIsObject] at h
    · subst h; rfl
  · intro entries d
    simp [transformEntries]
  · simp [transformObject, transformEntries, lookupDef]

/-- C9 witness: the general object case applied at a concrete object. -/
theorem claim_C9_transform_object_witness :
    jsTypeofIsObject (.obj 7 [(Key.str "a", .num 1)]) = true ∧
    (Value.obj 7 [(Key.str "a", .num 1)]) ≠ .null ∧
    transformObject (.obj 7 [(Key.str "a", .num 1)]) [] =
      .obj 8 (transformEntries [(Key.str "a", .num 1)] []) ∧
    transformObject (.obj 7 [(Key.str "a", .num 1)]) [] ≠
      .obj 7 [(Key.str "a", .num 1)] :=
  ⟨rfl, by simp,
   (claim_C9_transform_object.1 (.obj 7 [(Key.str "a", .num 1)]) [] rfl (by simp)).1,
   (claim_C9_transform_object.1 (.obj 7 [(Key.str "a", .num 1)]) [] rfl (by simp)).2⟩

/-- C3 counterexample.  The claim says a `Record`'s own values are checked by
the generic dispatcher `validateValue` (structural matching for array/object
literals).  The code instead compares non-guard value definitions with strict
equality (`value !== obj[key]`).  For `Record(["a"], L)` where `L` is the
array literal `[1]` (reference 5) and a candidate `{a: [1]}` holding a
structurally identical array with a different reference (6), the code rejects
although `validateValue` structurally accepts — so the claimed
characterization of failure is false at this input. -/
theorem claim_C3_counterexample :
    ¬ (((TypeGuards.Record (.list [Key.str "a"]) (.value (.arr 5 [.num 1]))).validate
          (.obj 0 [(Key.str "a", .arr 6 [.num 1])]) = false) ↔
       (isPlainObject (.obj 0 [(Key.str "a", .arr 6 [.num 1])]) = false ∨
        ¬ (Key.str "a") ∈ [Key.str "a"] ∨
        validateValue (.arr 6 [.num 1]) (.value (.arr 5 [.num 1])) = false)) := by
  intro h
  have h1 : (TypeGuards.Record (.list [Key.str "a"]) (.value (.arr 5 [.num 1]))).validate
      (.obj 0 [(Key.str "a", .arr 6 [.num 1])]) = false := by
    simp [TypeGuards.Record, constructor, TypeGuard.validate, lookupVal, strictEq]
  rcases h.mp h1 with h2 | h2 | h2
  · simp [isPlainObject] at h2
  · simp at h2
  · rw [show validateValue (.arr 6 [.num 1]) (.value (.arr 5 [.num 1])) = true by
      simp [validateValue, isIdenticalArray, strictEq]] at h2
    exact Bool.noConfusion h2

theorem lookupVal_of_nodup {entries : List (Key × Value)}
    (h : (entries.map Prod.fst).Nodup) {kv : Key × Value} (hm : kv ∈ entries) :
    lookupVal entries kv.1 = some kv.2 := by
  induction entries with
  | nil => simp at hm
  | cons e rest ih =>
      simp only [List.map_cons, List.nodup_cons] at h
      rcases List.mem_cons.mp hm with h1 | h1
      · subst h1
        simp [lookupVal]
      · have hne : e.1 ≠ kv.1 := by
          intro heq
          exact h.1 (heq ▸ List.mem_map_of_mem Prod.fst h1)
        simp only [lookupVal, if_neg hne]
        exact ih h.2 h1

/-- C3 amended.  A `Record(keys, value)` guard rejects every non-plain-object;
a plain object (with JS-unique own keys) is accepted iff every own entry
passes the key predicate (membership in the explicit key list, or the key
guard's validate) and the value check, where the value check is the value
guard's validate when `value` is a TypeGuard and strict equality (`===`) with
the value definition otherwise — not the generic dispatcher, so array and
plain-object literals match by reference identity only. -/
theorem claim_C3_record_amended :
    (∀ (keys : RecordKeys) (value : TypeDef) (r : Nat)
        (entries : List (Key × Value)),
      (entries.map Prod.fst).Nodup →
      ((TypeGuards.Record keys value).validate (.obj r entries) = true ↔
        ∀ kv ∈ entries,
          (match keys with
           | .tg kg => kg.validate (keyToValue kv.1) = true
           | .list ks => kv.1 ∈ ks) ∧
          (match value with
           | .guard vg => vg.validate kv.2 = true
           | .value w => strictEq w kv.2 = true))) ∧
    (∀ (keys : RecordKeys) (value : TypeDef) (v : Value),
      isPlainObject v = false → (TypeGuards.Record keys value).validate v = false) := by
  refine ⟨fun keys value r entries hnd => ?_, fun keys value v hv => ?_⟩
  · rw [show (TypeGuards.Record keys value).validate (.obj r entries) =
          ((entries.map Prod.fst).all fun key =>
            (match keys with
             | .tg kg => kg.validate (keyToValue key)
             | .list ks => ks.contains key) &&
            (match value with
             | .guard vg => vg.validate ((lookupVal entries key).getD .undef)
             | .value w => strictEq w ((lookupVal entries key).getD .undef)))
        from rfl]
    simp only [List.all_eq_true, Bool.and_eq_true]
    constructor
    · intro h kv hkv
      have hk : kv.1 ∈ entries.map Prod.fst := List.mem_map_of_mem _ hkv
      have hstep := h kv.1 hk
      rw [lookupVal_of_nodup hnd hkv] at hstep
      simp only [Option.getD_some] at hstep
      obtain ⟨h1, h2⟩ := hstep
      refine ⟨?_, ?_⟩
      · cases keys with
        | tg kg => exact h1
        | list ks => simpa [List.contains, List.elem_eq_mem] using h1
      · cases value with
        | guard vg => exact h2
        | value w => exact h2
    · intro h k hk
      obtain ⟨kv, hkv, rfl⟩ := List.mem_map.mp hk
      have hstep := h kv hkv
      rw [lookupVal_of_nodup hnd hkv]
      simp only [Option.getD_some]
      obtain ⟨h1, h2⟩ := hstep
      refine ⟨?_, ?_⟩
      · cases keys with
        | tg kg => exact h1
        | list ks => simpa [List.contains, List.elem_eq_mem] using h1
      · cases value with
        | guard vg => exact h2
        | value w => exact h2
  · match v with
    | .obj _ _ => simp [isPlainObject] at hv
    | .undef | .null | .bool _ | .num _ | .nan | .bigintV _ | .str _ | .sym _
    | .fn _ | .arr _ _ | .inst _ _ => rfl

/-- C3 amended witness: the amended characterization applied at a concrete
record and object (`Record(["a","b"], Number)` accepting `{a:0, b:3}`). -/
theorem claim_C3_record_amended_witness :
    ([Key.str "a", Key.str "b"].Nodup) ∧
    (TypeGuards.Record (.list [Key.str "a", Key.str "b"])
        (.guard TypeGuards.Number)).validate
      (.obj 0 [(Key.str "a", .num 0), (Key.str "b", .num 3)]) = true := by
  refine ⟨by decide, ?_⟩
  rw [claim_C3_record_amended.1 (.list [Key.str "a", Key.str "b"])
        (.guard TypeGuards.Number) 0
        [(Key.str "a", .num 0), (Key.str "b", .num 3)] (by simp)]
  intro kv hkv
  rcases List.mem_cons.mp hkv with h | h
  · subst h
    exact ⟨by simp, by simp [TypeGuards.Number, constructor, TypeGuard.validate]⟩
  · rcases List.mem_cons.mp h with h1 | h1
    · subst h1
      exact ⟨by simp, by simp [TypeGuards.Number, constructor, TypeGuard.validate]⟩
    · simp at h1

/-- Test fixture: a schema with keys `{a, b, c}` for the Pick/Omit
complementarity test. -/
def SchemaABC : TypeGuard :=
  TypeGuards.Schema [(Key.str "a", .guard TypeGuards.Number),
                     (Key.str "b", .guard TypeGuards.String),
                     (Key.str "c", .guard TypeGuards.Boolean)]

/-- C6.  For every schema input and every pair of key lists that partition its
key set (each definition key is picked iff it is not omitted), `Pick` and
`Omit` build the same narrowed definition and hence accept exactly the same
values. -/
theorem claim_C6_pick_omit :
    ∀ (s : SchemaInput) (p c : List Key),
      (∀ k ∈ (schemaInputDef s).map Prod.fst, (k ∈ p ↔ ¬ k ∈ c)) →
      ∀ v : Value,
        (TypeGuards.Pick s p).validate v = (TypeGuards.Omit s c).validate v := by
  intro s p c h v
  have hdef : TypeGuards.pickDef (schemaInputDef s) p =
      TypeGuards.omitDef (schemaInputDef s) c := by
    refine List.filter_congr ?_
    intro kt hkt
    have hmem := h kt.1 (List.mem_map_of_mem _ hkt)
    by_cases hp : kt.1 ∈ p
    · have hc : ¬ kt.1 ∈ c := hmem.mp hp
      simp [List.contains, List.elem_eq_mem, hp, hc]
    · have hc : kt.1 ∈ c := by
        by_contra hcontra
        exact hp (hmem.mpr hcontra)
      simp [List.contains, List.elem_eq_mem, hp, hc]
  rw [show (TypeGuards.Pick s p).validate v =
        validateObject v (TypeGuards.pickDef (schemaInputDef s) p) false from rfl,
      show (TypeGuards.Omit s c).validate v =
        validateObject v (TypeGuards.omitDef (schemaInputDef s) c) false from rfl,
      hdef]

/-- C6 witness: the complementarity applied at a schema with keys `{a,b,c}`,
picked keys `{a,b}`, omitted keys `{c}` and a concrete candidate object. -/
theorem claim_C6_pick_omit_witness :
    (∀ k ∈ (schemaInputDef (.tg SchemaABC)).map Prod.fst,
       (k ∈ [Key.str "a", Key.str "b"] ↔ ¬ k ∈ [Key.str "c"])) ∧
    (TypeGuards.Pick (.tg SchemaABC) [Key.str "a", Key.str "b"]).validate
        (.obj 0 [(Key.str "a", .num 1), (Key.str "b", .str "")]) =
      (TypeGuards.Omit (.tg SchemaABC) [Key.str "c"]).validate
        (.obj 0 [(Key.str "a", .num 1), (Key.str "b", .str "")]) := by
  have hpart : ∀ k ∈ (schemaInputDef (.tg SchemaABC)).map Prod.fst,
      (k ∈ [Key.str "a", Key.str "b"] ↔ ¬ k ∈ [Key.str "c"]) := by
    intro k hk
    simp only [SchemaABC, TypeGuards.Schema, constructor, schemaInputDef,
      TypeGuard.tag, List.map_cons, List.map_nil] at hk
    rcases List.mem_cons.mp hk with h | h
    · subst h; simp
    · rcases List.mem_cons.mp h with h1 | h1
      · subst h1; simp
      · rcases List.mem_cons.mp h1 with h2 | h2
        · subst h2; simp
        · simp at h2
  exact ⟨hpart, claim_C6_pick_omit (.tg SchemaABC) [Key.str "a", Key.str "b"]
    [Key.str "c"] hpart _⟩

theorem validateValue_guard (v : Value) (g : TypeGuard) :
    validateValue v (.guard g) = g.validate v := by
  rw [validateValue]

/-- C7.  `Union`'s transform is determined by the first candidate, in original
declaration order, accepted by `validateValue`: a guard candidate's transform
is applied; a literal match, or no match at all, returns the value unchanged.
The merged schema guard plays no role (the transform closure consults only
`types.find?` over the raw candidates). -/
theorem claim_C7_union_transform :
    ∀ (ts : List TypeDef) (v : Value),
      ((ts.find? fun t => validateValue v t) = none →
        (TypeGuards.Union ts).transform v = v) ∧
      (∀ g, (ts.find? fun t => validateValue v t) = some (.guard g) →
        (TypeGuards.Union ts).transform v = g.transform v) ∧
      (∀ w, (ts.find? fun t => validateValue v t) = some (.value w) →
        (TypeGuards.Union ts).transform v = v) := by
  intro ts v
  have hunfold : (TypeGuards.Union ts).transform v =
      (match ts.find? (fun t => validateValue v t) with
       | some (.guard g) => g.transform v
       | _ => v) := by
    rw [TypeGuards.Union]
    rfl
  refine ⟨fun h => ?_, fun g h => ?_, fun w h => ?_⟩
  · rw [hunfold, h]
  · rw [hunfold, h]
  · rw [hunfold, h]

/-- C7 witness: for `Union(Number, String)` and the value `"x"`, the first
accepting candidate is the `String` guard and its transform is applied. -/
theorem claim_C7_union_transform_witness :
    ([TypeDef.guard TypeGuards.Number, TypeDef.guard TypeGuards.String].find?
        (fun t => validateValue (.str "x") t)) =
      some (.guard TypeGuards.String) ∧
    (TypeGuards.Union [TypeDef.guard TypeGuards.Number,
        TypeDef.guard TypeGuards.String]).transform (.str "x") =
      TypeGuards.String.transform (.str "x") := by
  have hfind : ([TypeDef.guard TypeGuards.Number,
      TypeDef.guard TypeGuards.String].find?
        (fun t => validateValue (.str "x") t)) =
      some (.guard TypeGuards.String) := by
    simp [List.find?, validateValue_guard, TypeGuards.Number, TypeGuards.String,
      constructor, TypeGuard.validate]
  exact ⟨hfind, (claim_C7_union_transform _ _).2.1 TypeGuards.String hfind⟩

/-- C10.  When `Union` receives at least one shape-like candidate (a schema
type guard or a bare plain-object definition), the returned guard carries the
merged definition as its `DEF` slot, so `isSchemaTypeGuard` holds of it and
the `definition()`/`definition(key)` API exposes the merged definition and
its sub-definitions (allowing `Partial`/`Required`/`Pick`/`Omit` to be
applied to the union); with no shape-like candidate the result carries the
atomic `'typeguard'` tag. -/
theorem claim_C10_union_definition_tag :
    ∀ ts : List TypeDef,
      (hasShapeCandidate ts = true →
        (TypeGuards.Union ts).tag = DefTag.schema (mergedDef ts) ∧
        isSchemaTypeGuard (TypeGuards.Union ts) = true ∧
        (TypeGuards.Union ts).definitionApi none =
          .tagR (DefTag.schema (mergedDef ts)) ∧
        (∀ k, (TypeGuards.Union ts).definitionApi (some k) =
          (match lookupDef (mergedDef ts) k with
           | some t => DefinitionResult.defR t
           | none => DefinitionResult.undefR))) ∧
      (hasShapeCandidate ts = false →
        (TypeGuards.Union ts).tag = DefTag.atomic ∧
        isSchemaTypeGuard (TypeGuards.Union ts) = false) := by
  intro ts
  have htag : ∀ u : Option SchemaDef, unionDefOf ts = u →
      (TypeGuards.Union ts).tag =
        (match u with
         | some m => DefTag.schema m
         | none => DefTag.atomic) := by
    intro u hu
    rw [TypeGuards.Union, ← hu]
    rfl
  constructor
  · intro h
    have hu : unionDefOf ts = some (mergedDef ts) := by
      rw [unionDefOf, if_pos h]
    have ht := htag _ hu
    refine ⟨ht, ?_, ?_, ?_⟩
    · rw [isSchemaTypeGuard, ht]
    · rw [TypeGuard.definitionApi, ht]
    · intro k
      rw [TypeGuard.definitionApi, ht]
  · intro h
    have hu : unionDefOf ts = none := by
      rw [unionDefOf, if_neg (by simp [h])]
    have ht := htag _ hu
    exact ⟨ht, by rw [isSchemaTypeGuard, ht]⟩

/-- C10 witness: `Union(SchemaB)` has a shape-like candidate, so the result is
schema-shaped with the merged definition as its tag. -/
theorem claim_C10_union_definition_tag_witness :
    hasShapeCandidate [TypeDef.guard SchemaB] = true ∧
    (TypeGuards.Union [TypeDef.guard SchemaB]).tag =
      DefTag.schema (mergedDef [TypeDef.guard SchemaB]) ∧
    isSchemaTypeGuard (TypeGuards.Union [TypeDef.guard SchemaB]) = true := by
  have hs : hasShapeCandidate [TypeDef.guard SchemaB] = true := by
    simp [hasShapeCandidate, isShapeLike, SchemaB, TypeGuards.Schema, constructor,
      isSchemaTypeGuard, TypeGuard.tag]
  have h := (claim_C10_union_definition_tag [TypeDef.guard SchemaB]).1 hs
  exact ⟨hs, h.1, h.2.1⟩

theorem any_validate_congr (ts : List TypeDef) (v : Value) :
    (ts.any fun t =>
      match t with
      | TypeDef.guard g => g.validate v
      | TypeDef.value w => validateValue v (TypeDef.value w)) =
    ts.any fun t => validateValue v t := by
  induction ts with
  | nil => rfl
  | cons t rest ih =>
      cases t with
      | guard g => simp [List.any_cons, ih, validateValue_guard]
      | value w => simp [List.any_cons, ih]

/-- C1.  In general a plain-object value is accepted by `Union(...types)` iff
the exact-mode merged schema guard accepts it or some raw candidate accepts
it via `validateValue`.  Concretely, for `A = Schema({a: Number, b: String})`,
`B = Schema({a: String})` and `U = Union(A, B)`: `U` accepts `{a:0, b:""}`
(matches `A`), `{a:""}` (matches `B`), and the cross-variant `{a:"", b:""}`
(matches the merged schema, where key `a` is widened to
`Union(Number, String)`), and rejects `{a:0}` and `{b:""}`. -/
theorem claim_C1_union_merge :
    (∀ (ts : List TypeDef) (v : Value), isPlainObject v = true →
      (TypeGuards.Union ts).validate v =
        ((unionSchemaGuard ts).validate v || ts.any fun t => validateValue v t)) ∧
    UnionAB.validate (.obj 0 [(Key.str "a", .num 0), (Key.str "b", .str "")]) = true ∧
    UnionAB.validate (.obj 0 [(Key.str "a", .str "")]) = true ∧
    UnionAB.validate (.obj 0 [(Key.str "a", .str ""), (Key.str "b", .str "")]) = true ∧
    UnionAB.validate (.obj 0 [(Key.str "a", .num 0)]) = false ∧
    UnionAB.validate (.obj 0 [(Key.str "b", .str "")]) = false := by
  have hgen : ∀ (ts : List TypeDef) (v : Value), isPlainObject v = true →
      (TypeGuards.Union ts).validate v =
        ((unionSchemaGuard ts).validate v || ts.any fun t => validateValue v t) := by
    intro ts v h
    have hunfold : (TypeGuards.Union ts).validate v =
        (if isPlainObject v = false then ts.any fun t => validateValue v t
         else (TypeDef.guard (unionSchemaGuard ts) :: ts).any fun t =>
           match t with
           | TypeDef.guard g => g.validate v
           | TypeDef.value w => validateValue v (TypeDef.value w)) := by
      rw [TypeGuards.Union]
      rfl
    rw [hunfold, if_neg (by simp [h]), List.any_cons, any_validate_congr]
  refine ⟨hgen, ?_, ?_, ?_, ?_, ?_⟩ <;>
    simp [UnionAB, SchemaA, SchemaB, TypeGuards.Union, TypeGuards.Schema,
      TypeGuards.Number, TypeGuards.String, constructor, TypeGuard.validate,
      TypeGuard.tag, validateObject, validateValue, lookupVal, lookupDef,
      unionSchemaGuard, unionDefOf, hasShapeCandidate, isShapeLike,
      isSchemaTypeGuard, isPlainObject, mergedDef, mergeGroups, collectProps,
      subProps, pushEntry, defaultTransformer, isUndefB]

/-- C1 witness: the general plain-object rule applied at a concrete union and
plain object. -/
theorem claim_C1_union_merge_witness :
    isPlainObject (.obj 0 []) = true ∧
    (TypeGuards.Union [TypeDef.guard SchemaA]).validate (.obj 0 []) =
      ((unionSchemaGuard [TypeDef.guard SchemaA]).validate (.obj 0 []) ||
        [TypeDef.guard SchemaA].any fun t => validateValue (.obj 0 []) t) :=
  ⟨rfl, claim_C1_union_merge.1 [TypeDef.guard SchemaA] (.obj 0 []) rfl⟩

/-- C8.  Every guard built by the core — the modelled atomic leaves, arbitrary
contract-conforming external leaves, `Schema`, `Partial`, `Required`, `Pick`,
`Omit`, `Record`, `Array`, `StringArray`, `Optional`, `Nullable`,
`NonNullable`, `Union`, `Const` and `config` — has a validate that returns a
Boolean and a transform that returns a value on every input: both are total
functions in the embedding, so a mismatched input yields `false` or a
pass-through value, never an exception. -/
theorem claim_C8_totality :
    ∀ (e : GExpr) (v : Value),
      ((GExpr.eval e).validate v = true ∨ (GExpr.eval e).validate v = false) ∧
      ∃ w, (GExpr.eval e).transform v = w := by
  intro e v
  refine ⟨?_, ⟨_, rfl⟩⟩
  cases h : (GExpr.eval e).validate v
  · exact Or.inr rfl
  · exact Or.inl rfl

/-- C4 witness: the exact-mode characterization applied at a concrete object
and definition. -/
theorem claim_C4_exact_mode_witness :
    validateObject (.obj 0 [(Key.str "a", .num 1)])
      [(Key.str "a", .guard TypeGuards.Number)] false = true :=
  (claim_C4_exact_mode.1 0 [(Key.str "a", .num 1)]
    [(Key.str "a", .guard TypeGuards.Number)]).mpr
    ⟨rfl, by
      intro k hk
      simp only [List.map_cons, List.map_nil, List.mem_singleton] at hk
      subst hk
      refine ⟨by simp, ?_⟩
      simp [lookupVal, lookupDef, validateValue_guard, TypeGuards.Number,
        constructor, TypeGuard.validate]⟩

/-- C5 witness: the partial-mode characterization applied at a concrete
object whose declared key holds an explicit `undefined`. -/
theorem claim_C5_partial_mode_witness :
    validateObject (.obj 0 [(Key.str "b", .undef)])
      [(Key.str "b", .guard TypeGuards.String)] true = true :=
  (claim_C5_partial_mode.1 0 [(Key.str "b", .undef)]
    [(Key.str "b", .guard TypeGuards.String)]).mpr
    ⟨by
      intro k hk
      simp only [List.map_cons, List.map_nil, List.mem_singleton] at hk
      subst hk
      simp, by
      intro k hk
      simp only [List.map_cons, List.map_nil, List.mem_singleton] at hk
      subst hk
      exact Or.inl (by simp [lookupVal])⟩
